import Mathlib

/-!
# github-news dashboard script (`src/script.js`)

A shallow embedding of the page script: the render/index loop run on the
`/api/news` snapshot and the checkbox change handler that talks to
`/api/viewed`.

* JavaScript strings are `String`; template literals are concatenations of
  their literal pieces and the interpolated values.
* Loop counters and lengths are `Nat`, printed in decimal as JavaScript prints
  array indices.
* A thrown exception is `Except.error`; the requests handed to `$.ajax` are the
  value of the handler.
-/

namespace GithubNews

/-! ## Data model -/

/-- One element of `r[i]['commits']`, with the fields the script reads. The two
counts are non-negative integers, which JavaScript prints in decimal. -/
structure Commit where
  sha : String
  name : String
  link : String
  additions : Nat
  deletions : Nat
  last_modified : String
  viewed : Bool
  deriving DecidableEq, Repr

/-- One element `r[i]` of the snapshot; `id` is the text of the identifier.
`commits = none` is a repository object whose `commits` property is absent, so
that `r[i]['commits']` is `undefined`. -/
structure Repository where
  id : String
  name : String
  url : String
  commits : Option (List Commit)
  deriving DecidableEq, Repr

/-- The value stored by `data[...] = {repo_id: ..., commit_sha: ...}`. -/
structure BindingEntry where
  repo_id : String
  commit_sha : String
  deriving DecidableEq, Repr

/-- The properties the loop has written to `data`, in insertion order. -/
abbrev Index := List (String × BindingEntry)

/-- What a property read `data[key]` gives: an entry the loop wrote, a value the
array has without having been written to (the number `length`, or a property
it inherits such as `constructor`), or `undefined`. -/
inductive Value where
  | entry (e : BindingEntry)
  | builtin
  | undefined
  deriving DecidableEq, Repr

/-- Property write `data[key] = value` for the keys the loop writes: an existing
property is overwritten in place, a new one is added after the others. -/
def Index.set : Index → String → BindingEntry → Index
  | [], key, value => [(key, value)]
  | (k, v) :: rest, key, value =>
    if k = key then (k, value) :: rest else (k, v) :: Index.set rest key value

/-- Property read `data[key]`. `data` is an array (`data = []`): a name the loop
has not written is still defined when it is `length` or one of the names arrays
inherit from their prototypes, which `inherited` tells for the engine at hand. -/
def Index.get (inherited : String → Bool) : Index → String → Value
  | [], key => if key = "length" ∨ inherited key = true then .builtin else .undefined
  | (k, v) :: rest, key => if k = key then .entry v else Index.get inherited rest key

/-! ## Templates -/

/-- The key template `r${i}-c${j}-chb`, also the `id` attribute of the checkbox. -/
def checkboxId (i j : Nat) : String :=
  "r" ++ toString i ++ "-c" ++ toString j ++ "-chb"

/-- The first template literal: the summary row of repository `i`; `count` is
`r[i]['commits'].length`. -/
def summaryRow (i : Nat) (url name : String) (count : Nat) : String :=
  "\n                    <tr data-toggle=\"collapse\" data-target=\".order" ++ toString i ++
  "\">\n                        <td>&gt;</td>\n                        <td><a href=\"" ++ url ++
  "\" target=\"_blank\">" ++ name ++
  " (" ++ toString count ++
  ")</a></td>\n                    </tr>\n                "

/-- The `<input ...>` element of the second template literal. -/
def checkbox (i j : Nat) (viewed : Bool) : String :=
  "<input\n                                    class=\"form-check-input checkbox\"\n                                    type=\"checkbox\"\n                                    id=\"" ++
  checkboxId i j ++
  "\"\n                                    value=\"\"\n                                    " ++
  (if viewed then "checked" else "") ++
  ">"

/-- The second template literal up to the checkbox element. -/
def detailHead (i j : Nat) (c : Commit) : String :=
  "\n                        <tr class=\"collapse order" ++ toString i ++
  "\">\n                            <td>" ++ toString (j + 1) ++
  "</td>\n                            <td></td>\n                            <td><a href=\"" ++ c.link ++
  "\" target=\"_blank\">" ++ c.name ++
  "</a></td>\n                            <td>\n                                <span style=\"color: green\">+" ++
  toString c.additions ++
  "</span>\n                                /\n                                <span style=\"color: red\">-" ++
  toString c.deletions ++
  "</span>\n                            </td>\n                            <td>" ++ c.last_modified ++
  "</td>\n                            <td>\n                                "

/-- The second template literal after the checkbox element. -/
def detailTail : String :=
  "\n                            </td>\n                        </tr>\n                    "

/-- The second template literal: the detail row of commit `j` of repository `i`. -/
def detailRow (i j : Nat) (c : Commit) : String :=
  detailHead i j c ++ checkbox i j c.viewed ++ detailTail

/-! ## The render/index loop -/

/-- The two accumulators `html` and `data` of the `/api/news` callback. -/
structure RenderState where
  html : String
  data : Index
  deriving DecidableEq, Repr

/-- The inner loop `for (let j = 0; j < r[i]['commits'].length; j++)`, entered
at position `j` with the commits from `j` on still to visit. -/
def commitLoop (i : Nat) (repoId : String) : List Commit → Nat → RenderState → RenderState
  | [], _, st => st
  | c :: rest, j, st =>
    commitLoop i repoId rest (j + 1)
      { html := st.html ++ detailRow i j c
        data := st.data.set (checkboxId i j) { repo_id := repoId, commit_sha := c.sha } }

/-- The outer loop `for (let i = 0; i < r.length; i++)`, entered at position `i`
with the repositories from `i` on still to visit. Reading `.length` of an absent
`commits` throws a `TypeError`. -/
def repoLoop : List Repository → Nat → RenderState → Except String RenderState
  | [], _, st => .ok st
  | repo :: rest, i, st =>
    match repo.commits with
    | none => .error "TypeError"
    | some commits =>
      repoLoop rest (i + 1)
        (commitLoop i repo.id commits 0
          { html := st.html ++ summaryRow i repo.url repo.name commits.length
            data := st.data })

/-- The body of the `/api/news` callback up to `$('#tbody-id').html(html)`:
`let html = '', data = []` followed by the loops. -/
def render (r : List Repository) : Except String RenderState :=
  repoLoop r 0 { html := "", data := [] }

/-! ## The change handler -/

/-- The settings object handed to `$.ajax`. -/
structure Request where
  url : String
  type : String
  deriving DecidableEq, Repr

/-- The characters `encodeURIComponent` leaves as they are. -/
def isUnreserved (c : Char) : Bool :=
  c.isAlphanum || "-_.!~*\x27()".data.contains c

/-- Upper-case hexadecimal digit. -/
def hexDigit (n : Nat) : Char :=
  if n < 10 then Char.ofNat (48 + n) else Char.ofNat (55 + n)

/-- The UTF-8 octets of a code point. -/
def utf8Octets (n : Nat) : List Nat :=
  if n < 0x80 then [n]
  else if n < 0x800 then [0xC0 + n / 64, 0x80 + n % 64]
  else if n < 0x10000 then [0xE0 + n / 4096, 0x80 + n / 64 % 64, 0x80 + n % 64]
  else [0xF0 + n / 262144, 0x80 + n / 4096 % 64, 0x80 + n / 64 % 64, 0x80 + n % 64]

/-- One octet as `%XY`. -/
def percentOctet (b : Nat) : List Char :=
  ['%', hexDigit (b / 16), hexDigit (b % 16)]

/-- The built-in `encodeURIComponent` on one character. -/
def encodeChar (c : Char) : List Char :=
  if isUnreserved c then [c] else (utf8Octets c.toNat).flatMap percentOctet

/-- The built-in `encodeURIComponent`. A `String` holds no lone surrogate, the
one input on which the built-in throws. -/
def encodeURIComponent (s : String) : String :=
  ⟨s.data.flatMap encodeChar⟩

/-- The regular-expression replacement `.replace(/%20/g, "+")`. -/
def replacePercent20 : List Char → List Char
  | '%' :: '2' :: '0' :: rest => '+' :: replacePercent20 rest
  | c :: rest => c :: replacePercent20 rest
  | [] => []

/-- What differs between the jQuery releases a page may load: the value of
`$.param(undefined)` (an empty string in recent releases, a `TypeError` from
reading a property of `undefined` in older ones) and whether `$.param` rewrites
`%20` as `+` (releases before 3.0). -/
structure JQuery where
  paramUndefined : Except String String
  plusForSpace : Bool

/-- The collaborator `$.param` on a binding entry: the two properties in
insertion order, as `key=value` joined by `&`, with the values URI-encoded. -/
def paramEntry (jq : JQuery) (e : BindingEntry) : String :=
  let s := "repo_id=" ++ encodeURIComponent e.repo_id ++ "&" ++
    ("commit_sha=" ++ encodeURIComponent e.commit_sha)
  if jq.plusForSpace then ⟨replacePercent20 s.data⟩ else s

/-- The collaborator `$.param` on the value of `data[e.target.id]`. The values an
array has without having been written to (the number `length`, the inherited
functions, the prototype object) have no enumerable property to serialise, so
for them the result is the empty string in every release. -/
def param (jq : JQuery) : Value → Except String String
  | .entry e => .ok (paramEntry jq e)
  | .builtin => .ok ""
  | .undefined => jq.paramUndefined

/-- The callback of `$(".checkbox").change(...)` for an event whose target has
the given `id` and `checked` properties. The value lists the requests handed to
`$.ajax`; the `console.log` of a response is not modelled. -/
def change (jq : JQuery) (inherited : String → Bool) (data : Index) (id : String)
    (checked : Bool) : Except String (List Request) :=
  match param jq (data.get inherited id) with
  | .error e => .error e
  | .ok query =>
    .ok [{ url := "/api/viewed?" ++ query, type := if checked then "POST" else "DELETE" }]

/-! ## Reading the output

What follows is not part of the script: the rows and entries the loops are
meant to produce, written out by recursion on the snapshot, and the functions
used to state facts about the markup. -/

/-- Value of a decimal digit character. -/
def digitValue (c : Char) : Nat := c.toNat - 48

/-- Value of a decimal numeral. -/
def decodeDigits (l : List Char) : Nat :=
  l.foldl (fun acc c => acc * 10 + digitValue c) 0

/-- The commits list of a repository, empty when the property is absent. -/
def Repository.commitList (repo : Repository) : List Commit :=
  repo.commits.getD []

/-- One `html += ...` of the loops. -/
inductive Row where
  | summary (i : Nat) (url name : String) (count : Nat)
  | detail (i j : Nat) (c : Commit)
  deriving DecidableEq, Repr

/-- The text a row adds to `html`. -/
def Row.markup : Row → String
  | .summary i url name count => summaryRow i url name count
  | .detail i j c => detailRow i j c

/-- Whether a row is a summary row. -/
def Row.isSummary : Row → Bool
  | .summary _ _ _ _ => true
  | .detail _ _ _ => false

/-- Whether a row is a detail row. -/
def Row.isDetail : Row → Bool
  | .summary _ _ _ _ => false
  | .detail _ _ _ => true

/-- Whether a row is a detail row of group `order{i}`. -/
def Row.isDetailOf (i : Nat) : Row → Bool
  | .summary _ _ _ _ => false
  | .detail i2 _ _ => i2 = i

/-- The detail rows of the commits of repository `i`, the first at position `j`. -/
def detailRows (i : Nat) : List Commit → Nat → List Row
  | [], _ => []
  | c :: rest, j => Row.detail i j c :: detailRows i rest (j + 1)

/-- The rows of the repositories, the first at position `i`: each summary row
followed by the detail rows of its commits. -/
def rowsFrom : List Repository → Nat → List Row
  | [], _ => []
  | repo :: rest, i =>
    Row.summary i repo.url repo.name repo.commitList.length ::
      (detailRows i repo.commitList 0 ++ rowsFrom rest (i + 1))

/-- The binding entries of the commits of repository `i`, the first at position `j`. -/
def detailEntries (i : Nat) (repoId : String) : List Commit → Nat → Index
  | [], _ => []
  | c :: rest, j =>
    (checkboxId i j, { repo_id := repoId, commit_sha := c.sha }) ::
      detailEntries i repoId rest (j + 1)

/-- The binding entries of the repositories, the first at position `i`. -/
def entriesFrom : List Repository → Nat → Index
  | [], _ => []
  | repo :: rest, i => detailEntries i repo.id repo.commitList 0 ++ entriesFrom rest (i + 1)

/-- The keys of an index. -/
def Index.keys (d : Index) : List String := d.map Prod.fst

/-- Whether a key starts with `r{i}-c`, as the identifiers of the checkboxes of
repository `i` do. -/
def isKeyOf (i : Nat) (key : String) : Bool :=
  ("r" ++ toString i ++ "-c").data.isPrefixOf key.data

/-- The markup of repository `i`: its summary row, then the detail rows of its
commits in list order. -/
def repoBlock (i : Nat) (repo : Repository) : String :=
  summaryRow i repo.url repo.name repo.commitList.length ++
    String.join (repo.commitList.enum.map fun q => detailRow i q.1 q.2)

/-- Number of positions of a text at which `pat` starts. -/
def countOccurrences (pat : List Char) : List Char → Nat
  | [] => if pat.isPrefixOf [] then 1 else 0
  | c :: rest => (if pat.isPrefixOf (c :: rest) then 1 else 0) + countOccurrences pat rest

/-- The text `$.param` writes for one character of a value. -/
def paramChar (plus : Bool) (c : Char) : List Char :=
  if plus = true ∧ c = ' ' then ['+'] else encodeChar c

/-- Whether `encodeURIComponent` leaves every character of the string as it is;
decimal numbers and hexadecimal hashes are such strings. -/
def urlSafe (s : String) : Bool :=
  s.data.all isUnreserved

/-! ## Sample snapshots -/

/-- A snapshot of two repositories, the first with two commits, the second
with none. -/
def sampleSnapshot : List Repository :=
  [ ⟨"7", "alpha", "http://a", some
      [ ⟨"abc", "first", "http://a/1", 3, 14, "today", true⟩,
        ⟨"def", "second", "http://a/2", 0, 1, "now", false⟩ ]⟩,
    ⟨"9", "beta", "http://b", some []⟩ ]

/-- The first repository of `sampleSnapshot`. -/
def sampleRepo : Repository :=
  ⟨"7", "alpha", "http://a", some
    [ ⟨"abc", "first", "http://a/1", 3, 14, "today", true⟩,
      ⟨"def", "second", "http://a/2", 0, 1, "now", false⟩ ]⟩

/-- The second commit of `sampleRepo`. -/
def sampleCommit : Commit :=
  ⟨"def", "second", "http://a/2", 0, 1, "now", false⟩

/-- A snapshot of one repository with one commit, whose name is the text of a
checkbox element. -/
def injectedSnapshot : List Repository :=
  [ ⟨"7", "alpha", "http://a", some
      [ ⟨"abc", "<input class=\"checkbox\" id=\"x\">", "http://a/1", 3, 14, "today", false⟩ ]⟩ ]

/-- A snapshot of two repositories whose single commits have the same sha. -/
def sharedShaSnapshot : List Repository :=
  [ ⟨"7", "alpha", "http://a", some
      [ ⟨"abc", "first", "http://a/1", 3, 14, "today", true⟩ ]⟩,
    ⟨"9", "beta", "http://b", some
      [ ⟨"abc", "other", "http://b/1", 1, 0, "now", false⟩ ]⟩ ]

/-- The state in which the loops leave `sharedShaSnapshot`. -/
def sharedShaState : RenderState :=
  { html := String.join ((rowsFrom sharedShaSnapshot 0).map Row.markup)
    data := [("r0-c0-chb", ⟨"7", "abc"⟩), ("r1-c0-chb", ⟨"9", "abc"⟩)] }

/-- The state in which the loops leave `sampleSnapshot`. -/
def sampleState : RenderState :=
  { html := String.join ((rowsFrom sampleSnapshot 0).map Row.markup)
    data := [("r0-c0-chb", ⟨"7", "abc"⟩), ("r0-c1-chb", ⟨"7", "def"⟩)] }

/-- The state in which the loops leave `injectedSnapshot`. -/
def injectedState : RenderState :=
  { html := String.join ((rowsFrom injectedSnapshot 0).map Row.markup)
    data := [("r0-c0-chb", ⟨"7", "abc"⟩)] }

/-- Some of the names the arrays of every engine inherit. -/
def sampleInherited (key : String) : Bool :=
  ["constructor", "toString", "valueOf", "hasOwnProperty", "push", "pop", "join",
    "slice", "concat", "map"].contains key

/-- A recent jQuery release. -/
def sampleJQuery : JQuery :=
  { paramUndefined := .ok "", plusForSpace := false }

/-! # Properties -/

/-! ## Decimal numerals -/

theorem toString_data (n : Nat) : (toString n).data = Nat.toDigits 10 n := rfl

theorem digitChar_spec (n : Nat) (h : n < 10) :
    (Nat.digitChar n).isDigit = true ∧ digitValue (Nat.digitChar n) = n := by
  interval_cases n <;> decide

theorem toDigitsCore_append (f n : Nat) (ds : List Char) :
    Nat.toDigitsCore 10 f n ds = Nat.toDigitsCore 10 f n [] ++ ds := by
  induction f generalizing n ds with
  | zero => simp [Nat.toDigitsCore]
  | succ f ih =>
    simp only [Nat.toDigitsCore]
    split
    · simp
    · rw [ih (n / 10) (_ :: ds), ih (n / 10) [_]]; simp

theorem decodeDigits_append_singleton (l : List Char) (c : Char) :
    decodeDigits (l ++ [c]) = decodeDigits l * 10 + digitValue c := by
  simp [decodeDigits, List.foldl_append]

theorem toDigitsCore_spec (f n : Nat) (h : n < f) :
    (∀ c ∈ Nat.toDigitsCore 10 f n [], c.isDigit = true) ∧
      decodeDigits (Nat.toDigitsCore 10 f n []) = n := by
  induction f generalizing n with
  | zero => omega
  | succ f ih =>
    have hd := digitChar_spec (n % 10) (Nat.mod_lt _ (by decide))
    simp only [Nat.toDigitsCore]
    split
    · rename_i h0
      refine ⟨by simpa using hd.1, ?_⟩
      have : decodeDigits [Nat.digitChar (n % 10)] = digitValue (Nat.digitChar (n % 10)) := by
        simp [decodeDigits]
      rw [this, hd.2]; omega
    · rename_i h0
      rw [toDigitsCore_append]
      have ih1 := ih (n / 10) (by omega)
      refine ⟨?_, ?_⟩
      · intro c hc
        rcases List.mem_append.1 hc with hc | hc
        · exact ih1.1 c hc
        · simp at hc; subst hc; exact hd.1
      · rw [decodeDigits_append_singleton, ih1.2, hd.2]; omega

theorem toDigits_isDigit (n : Nat) : ∀ c ∈ Nat.toDigits 10 n, c.isDigit = true :=
  (toDigitsCore_spec (n + 1) n (Nat.lt_succ_self n)).1

theorem toDigits_injective {m n : Nat} (h : Nat.toDigits 10 m = Nat.toDigits 10 n) : m = n := by
  have hm := (toDigitsCore_spec (m + 1) m (Nat.lt_succ_self m)).2
  have hn := (toDigitsCore_spec (n + 1) n (Nat.lt_succ_self n)).2
  unfold Nat.toDigits at h
  rw [h] at hm
  omega

/-- Two lists that agree after a separator absent from both fronts have equal
fronts and equal rests. -/
theorem append_cons_cancel {α : Type} {x : α} :
    ∀ {l l2 t t2 : List α}, x ∉ l → x ∉ l2 → l ++ x :: t = l2 ++ x :: t2 → l = l2 ∧ t = t2
  | [], [], _, _, _, _, h => by simpa using h
  | [], b :: l2, _, _, _, h2, h => by
    simp at h; exact absurd h.1 (fun e => h2 (by simp [e]))
  | a :: l, [], _, _, h1, _, h => by
    simp at h; exact absurd h.1 (fun e => h1 (by simp [e]))
  | a :: l, b :: l2, t, t2, h1, h2, h => by
    simp at h
    have := @append_cons_cancel α x l l2 t t2
      (fun e => h1 (by simp [e])) (fun e => h2 (by simp [e])) h.2
    exact ⟨by rw [h.1, this.1], this.2⟩

theorem isDigit_ne_dash {c : Char} (h : c.isDigit = true) : c ≠ '-' := by
  intro e; subst e; exact absurd h (by decide)

theorem dash_not_mem_toDigits (n : Nat) : '-' ∉ Nat.toDigits 10 n :=
  fun h => isDigit_ne_dash (toDigits_isDigit n _ h) rfl

theorem checkboxId_data (i j : Nat) :
    (checkboxId i j).data =
      'r' :: (Nat.toDigits 10 i ++ '-' :: ('c' :: (Nat.toDigits 10 j ++ '-' :: ['c', 'h', 'b']))) := by
  simp [checkboxId, String.data_append, toString_data]

theorem checkboxId_injective {i j i2 j2 : Nat} (h : checkboxId i j = checkboxId i2 j2) :
    i = i2 ∧ j = j2 := by
  have hd := congrArg String.data h
  rw [checkboxId_data, checkboxId_data] at hd
  have h1 := append_cons_cancel (dash_not_mem_toDigits i) (dash_not_mem_toDigits i2)
    (List.cons.inj hd).2
  have h2 := append_cons_cancel (dash_not_mem_toDigits j) (dash_not_mem_toDigits j2)
    (List.cons.inj h1.2).2
  exact ⟨toDigits_injective h1.1, toDigits_injective h2.1⟩

theorem suffix_append_left {α : Type} {l1 l2 : List α} (l3 : List α) (h : l1 <:+ l2) :
    l1 <:+ l3 ++ l2 :=
  h.trans (List.suffix_append _ _)

theorem infix_append_left {α : Type} {l1 l2 : List α} (l3 : List α) (h : l1 <:+: l2) :
    l1 <:+: l3 ++ l2 :=
  h.trans (List.suffix_append _ _).isInfix

theorem infix_append_right {α : Type} {l1 l2 : List α} (l3 : List α) (h : l1 <:+: l2) :
    l1 <:+: l2 ++ l3 :=
  h.trans (List.prefix_append _ _).isInfix

/-! ## The index as a property map -/

theorem Index.set_fresh (d : Index) (key : String) (value : BindingEntry)
    (h : key ∉ d.keys) : d.set key value = d ++ [(key, value)] := by
  induction d with
  | nil => rfl
  | cons p rest ih =>
    obtain ⟨k, v⟩ := p
    simp only [Index.keys, List.map_cons, List.mem_cons, not_or] at h
    have hk : ¬ k = key := fun e => h.1 e.symm
    simp only [Index.set, if_neg hk, List.cons_append]
    rw [ih h.2]

theorem Index.get_of_not_mem (inherited : String → Bool) (d : Index) (key : String)
    (h : key ∉ d.keys) :
    d.get inherited key =
      if key = "length" ∨ inherited key = true then .builtin else .undefined := by
  induction d with
  | nil => rfl
  | cons p rest ih =>
    obtain ⟨k, v⟩ := p
    simp only [Index.keys, List.map_cons, List.mem_cons, not_or] at h
    have hk : ¬ k = key := fun e => h.1 e.symm
    simp only [Index.get, if_neg hk]
    exact ih h.2

theorem Index.get_of_mem (inherited : String → Bool) (d : Index) (key : String)
    (value : BindingEntry) (hn : d.keys.Nodup) (h : (key, value) ∈ d) :
    d.get inherited key = .entry value := by
  induction d with
  | nil => simp at h
  | cons p rest ih =>
    obtain ⟨k, v⟩ := p
    simp only [Index.keys, List.map_cons, List.nodup_cons] at hn
    rcases List.mem_cons.1 h with h | h
    · injection h with h1 h2
      subst h1; subst h2
      simp [Index.get]
    · have hk : ¬ k = key := by
        intro e; subst e
        exact hn.1 (List.mem_map_of_mem Prod.fst h)
      simp only [Index.get, if_neg hk]
      exact ih hn.2 h

/-! ## What the loops compute -/

theorem join_foldl (l : List String) (acc : String) :
    l.foldl (fun r s => r ++ s) acc = acc ++ String.join l := by
  induction l generalizing acc with
  | nil => simp [String.join]
  | cons a rest ih =>
    simp only [List.foldl_cons, String.join]
    rw [ih (acc ++ a), ih ("" ++ a)]
    simp [String.append_assoc]

theorem join_cons (a : String) (l : List String) :
    String.join (a :: l) = a ++ String.join l := by
  simp only [String.join, List.foldl_cons]
  rw [join_foldl]
  simp [String.join]

theorem join_append (l1 l2 : List String) :
    String.join (l1 ++ l2) = String.join l1 ++ String.join l2 := by
  induction l1 with
  | nil => simp [String.join]
  | cons a rest ih => simp [join_cons, ih, String.append_assoc]

theorem detailEntries_keys {i : Nat} {repoId : String} {cs : List Commit} {j : Nat}
    {key : String} (h : key ∈ (detailEntries i repoId cs j).keys) :
    ∃ n, j ≤ n ∧ n < j + cs.length ∧ key = checkboxId i n := by
  induction cs generalizing j with
  | nil => simp [detailEntries, Index.keys] at h
  | cons c rest ih =>
    simp only [detailEntries, Index.keys, List.map_cons, List.mem_cons] at h
    rcases h with h | h
    · exact ⟨j, Nat.le_refl j, by simp, h⟩
    · obtain ⟨n, h1, h2, h3⟩ := ih h
      exact ⟨n, by omega, by simp; omega, h3⟩

theorem detailEntries_nodup (i : Nat) (repoId : String) (cs : List Commit) (j : Nat) :
    (detailEntries i repoId cs j).keys.Nodup := by
  induction cs generalizing j with
  | nil => simp [detailEntries, Index.keys]
  | cons c rest ih =>
    simp only [detailEntries, Index.keys, List.map_cons, List.nodup_cons]
    refine ⟨?_, ih (j + 1)⟩
    intro h
    obtain ⟨n, h1, _, h3⟩ := detailEntries_keys h
    have := (checkboxId_injective h3).2
    omega

theorem detailEntries_length (i : Nat) (repoId : String) (cs : List Commit) (j : Nat) :
    (detailEntries i repoId cs j).length = cs.length := by
  induction cs generalizing j with
  | nil => rfl
  | cons c rest ih => simp [detailEntries, ih]

theorem commitLoop_eq (i : Nat) (repoId : String) (cs : List Commit) (j : Nat)
    (st : RenderState) (h : ∀ n, j ≤ n → checkboxId i n ∉ st.data.keys) :
    commitLoop i repoId cs j st =
      { html := st.html ++ String.join ((detailRows i cs j).map Row.markup)
        data := st.data ++ detailEntries i repoId cs j } := by
  induction cs generalizing j st with
  | nil => simp [commitLoop, detailRows, detailEntries, String.join]
  | cons c rest ih =>
    simp only [commitLoop]
    rw [ih]
    · rw [Index.set_fresh _ _ _ (h j (Nat.le_refl j))]
      simp [detailRows, detailEntries, join_cons, Row.markup, String.append_assoc]
    · intro n hn
      rw [Index.set_fresh _ _ _ (h j (Nat.le_refl j))]
      simp only [Index.keys, List.map_append, List.map_cons, List.map_nil, List.mem_append,
        List.mem_singleton, not_or]
      refine ⟨h n (by omega), fun e => ?_⟩
      have := (checkboxId_injective e).2
      omega

theorem entriesFrom_keys {rs : List Repository} {i : Nat} {key : String}
    (h : key ∈ (entriesFrom rs i).keys) : ∃ n j, i ≤ n ∧ key = checkboxId n j := by
  induction rs generalizing i with
  | nil => simp [entriesFrom, Index.keys] at h
  | cons repo rest ih =>
    simp only [entriesFrom, Index.keys, List.map_append, List.mem_append] at h
    rcases h with h | h
    · obtain ⟨n, _, _, h3⟩ := detailEntries_keys h
      exact ⟨i, n, Nat.le_refl i, h3⟩
    · obtain ⟨n, j, h1, h2⟩ := ih h
      exact ⟨n, j, by omega, h2⟩

theorem entriesFrom_nodup (rs : List Repository) (i : Nat) :
    (entriesFrom rs i).keys.Nodup := by
  induction rs generalizing i with
  | nil => simp [entriesFrom, Index.keys]
  | cons repo rest ih =>
    simp only [entriesFrom, Index.keys, List.map_append]
    rw [List.nodup_append]
    refine ⟨detailEntries_nodup _ _ _ _, ih (i + 1), ?_⟩
    intro key h1 h2
    obtain ⟨n, _, _, h3⟩ := detailEntries_keys h1
    obtain ⟨m, j, h4, h5⟩ := entriesFrom_keys h2
    have := (checkboxId_injective (h3.symm.trans h5)).1
    omega

theorem entriesFrom_length (rs : List Repository) (i : Nat) :
    (entriesFrom rs i).length = (rs.map fun repo => repo.commitList.length).sum := by
  induction rs generalizing i with
  | nil => rfl
  | cons repo rest ih => simp [entriesFrom, detailEntries_length, ih]

theorem repoLoop_eq (rs : List Repository) (i : Nat) (st : RenderState)
    (hc : ∀ repo ∈ rs, repo.commits.isSome = true)
    (h : ∀ n j, i ≤ n → checkboxId n j ∉ st.data.keys) :
    repoLoop rs i st = .ok
      { html := st.html ++ String.join ((rowsFrom rs i).map Row.markup)
        data := st.data ++ entriesFrom rs i } := by
  induction rs generalizing i st with
  | nil => simp [repoLoop, rowsFrom, entriesFrom, String.join]
  | cons repo rest ih =>
    have hrepo := hc repo (List.mem_cons_self _ _)
    obtain ⟨cs, hcs⟩ := Option.isSome_iff_exists.1 hrepo
    have hlist : repo.commitList = cs := by simp [Repository.commitList, hcs]
    simp only [repoLoop, hcs]
    rw [commitLoop_eq i repo.id cs 0
      ⟨st.html ++ summaryRow i repo.url repo.name cs.length, st.data⟩
      (fun n _ => h i n (Nat.le_refl i))]
    rw [ih _ _ (fun r hr => hc r (List.mem_cons_of_mem _ hr))]
    · simp [rowsFrom, entriesFrom, hlist, join_cons, join_append, Row.markup,
        String.append_assoc]
    · intro n j hn
      simp only [Index.keys, List.map_append, List.mem_append, not_or]
      refine ⟨h n j (by omega), fun hk => ?_⟩
      obtain ⟨m, _, _, h3⟩ := detailEntries_keys hk
      have := (checkboxId_injective h3).1
      omega

theorem render_eq (r : List Repository) (hc : ∀ repo ∈ r, repo.commits.isSome = true) :
    render r = .ok
      { html := String.join ((rowsFrom r 0).map Row.markup)
        data := entriesFrom r 0 } := by
  unfold render
  rw [repoLoop_eq r 0 _ hc (by simp [Index.keys])]
  simp

theorem repoLoop_error (rs : List Repository) (i : Nat) (st : RenderState)
    (h : ∃ repo ∈ rs, repo.commits = none) : repoLoop rs i st = .error "TypeError" := by
  induction rs generalizing i st with
  | nil => simp at h
  | cons repo rest ih =>
    cases hcs : repo.commits with
    | none => simp [repoLoop, hcs]
    | some cs =>
      simp only [repoLoop, hcs]
      apply ih
      obtain ⟨x, hx, hx2⟩ := h
      rcases List.mem_cons.1 hx with e | hx
      · subst e; rw [hcs] at hx2; exact absurd hx2 (by simp)
      · exact ⟨x, hx, hx2⟩

theorem render_ok_commits {r : List Repository} {st : RenderState} (h : render r = .ok st) :
    ∀ repo ∈ r, repo.commits.isSome = true := by
  intro repo hrepo
  cases hcs : repo.commits with
  | some cs => rfl
  | none =>
    have := repoLoop_error r 0 { html := "", data := [] } ⟨repo, hrepo, hcs⟩
    unfold render at h
    rw [this] at h
    exact absurd h (by simp)

/-! ## Rows and entries by position -/

theorem detailEntries_mem {i : Nat} {repoId : String} {cs : List Commit} {j n : Nat}
    {c : Commit} (h : cs[n]? = some c) :
    (checkboxId i (j + n), { repo_id := repoId, commit_sha := c.sha }) ∈
      detailEntries i repoId cs j := by
  induction cs generalizing j n with
  | nil => simp at h
  | cons c0 rest ih =>
    cases n with
    | zero =>
      simp at h; subst h
      simp [detailEntries]
    | succ n =>
      simp at h
      have := @ih (j + 1) n h
      simp only [detailEntries, List.mem_cons]
      right
      rwa [show j + (n + 1) = j + 1 + n by omega]

theorem entriesFrom_mem {rs : List Repository} {i n m : Nat} {repo : Repository}
    {c : Commit} (h : rs[n]? = some repo) (hm : repo.commitList[m]? = some c) :
    (checkboxId (i + n) m, { repo_id := repo.id, commit_sha := c.sha }) ∈
      entriesFrom rs i := by
  induction rs generalizing i n with
  | nil => simp at h
  | cons r0 rest ih =>
    cases n with
    | zero =>
      simp at h; subst h
      simp only [entriesFrom, List.mem_append]
      left
      have := @detailEntries_mem i r0.id r0.commitList 0 m c hm
      simpa using this
    | succ n =>
      simp at h
      have := @ih (i + 1) n h
      simp only [entriesFrom, List.mem_append]
      right
      rwa [show i + (n + 1) = i + 1 + n by omega]

theorem detailRows_mem {i : Nat} {cs : List Commit} {j n : Nat} {c : Commit}
    (h : cs[n]? = some c) : Row.detail i (j + n) c ∈ detailRows i cs j := by
  induction cs generalizing j n with
  | nil => simp at h
  | cons c0 rest ih =>
    cases n with
    | zero =>
      simp at h; subst h
      simp [detailRows]
    | succ n =>
      simp at h
      have := @ih (j + 1) n h
      simp only [detailRows, List.mem_cons]
      right
      rwa [show j + (n + 1) = j + 1 + n by omega]

theorem rowsFrom_mem_detail {rs : List Repository} {i n m : Nat} {repo : Repository}
    {c : Commit} (h : rs[n]? = some repo) (hm : repo.commitList[m]? = some c) :
    Row.detail (i + n) m c ∈ rowsFrom rs i := by
  induction rs generalizing i n with
  | nil => simp at h
  | cons r0 rest ih =>
    cases n with
    | zero =>
      simp at h; subst h
      simp only [rowsFrom, List.mem_cons, List.mem_append]
      right; left
      have := @detailRows_mem i r0.commitList 0 m c hm
      simpa using this
    | succ n =>
      simp at h
      have := @ih (i + 1) n h
      simp only [rowsFrom, List.mem_cons, List.mem_append]
      right; right
      rwa [show i + (n + 1) = i + 1 + n by omega]

theorem rowsFrom_mem_summary {rs : List Repository} {i n : Nat} {repo : Repository}
    (h : rs[n]? = some repo) :
    Row.summary (i + n) repo.url repo.name repo.commitList.length ∈ rowsFrom rs i := by
  induction rs generalizing i n with
  | nil => simp at h
  | cons r0 rest ih =>
    cases n with
    | zero =>
      simp at h; subst h
      simp [rowsFrom]
    | succ n =>
      simp at h
      have := @ih (i + 1) n h
      simp only [rowsFrom, List.mem_cons, List.mem_append]
      right; right
      rwa [show i + (n + 1) = i + 1 + n by omega]

theorem detailRows_filter_summary (i : Nat) (cs : List Commit) (j : Nat) :
    (detailRows i cs j).filter Row.isSummary = [] := by
  induction cs generalizing j with
  | nil => rfl
  | cons c rest ih => simp [detailRows, Row.isSummary, ih]

theorem detailRows_filter_detail (i : Nat) (cs : List Commit) (j : Nat) :
    ((detailRows i cs j).filter Row.isDetail).length = cs.length := by
  induction cs generalizing j with
  | nil => rfl
  | cons c rest ih => simp [detailRows, Row.isDetail, ih]

theorem rowsFrom_count_summary (rs : List Repository) (i : Nat) :
    ((rowsFrom rs i).filter Row.isSummary).length = rs.length := by
  induction rs generalizing i with
  | nil => rfl
  | cons repo rest ih =>
    simp [rowsFrom, Row.isSummary, detailRows_filter_summary, ih]

theorem rowsFrom_count_detail (rs : List Repository) (i : Nat) :
    ((rowsFrom rs i).filter Row.isDetail).length =
      (rs.map fun repo => repo.commitList.length).sum := by
  induction rs generalizing i with
  | nil => rfl
  | cons repo rest ih =>
    simp [rowsFrom, Row.isDetail, detailRows_filter_detail, ih]

/-! ## Counts, lookup and requests -/

/-- C1: for a snapshot in which every repository has a commits list, the loops
finish, the markup is the concatenation of the rows of `rowsFrom`, of which
exactly as many are summary rows as there are repositories and exactly as many
are detail rows as there are commits in total, and the index has exactly one
entry per commit, all under different keys. -/
theorem render_counts (r : List Repository)
    (hc : ∀ repo ∈ r, repo.commits.isSome = true) :
    ∃ st, render r = .ok st ∧
      st.html = String.join ((rowsFrom r 0).map Row.markup) ∧
      ((rowsFrom r 0).filter Row.isSummary).length = r.length ∧
      ((rowsFrom r 0).filter Row.isDetail).length =
        (r.map fun repo => repo.commitList.length).sum ∧
      st.data.length = (r.map fun repo => repo.commitList.length).sum ∧
      st.data.keys.Nodup :=
  ⟨_, render_eq r hc, rfl, rowsFrom_count_summary r 0, rowsFrom_count_detail r 0,
    entriesFrom_length r 0, entriesFrom_nodup r 0⟩

theorem render_ok_eq {r : List Repository} {st : RenderState} (h : render r = .ok st) :
    st = { html := String.join ((rowsFrom r 0).map Row.markup), data := entriesFrom r 0 } := by
  rw [render_eq r (render_ok_commits h)] at h
  exact (Except.ok.inj h).symm

theorem get_rendered (inherited : String → Bool) {r : List Repository} {st : RenderState}
    {i j : Nat} {repo : Repository} {cs : List Commit} {c : Commit}
    (h : render r = .ok st) (hi : r[i]? = some repo) (hcs : repo.commits = some cs)
    (hj : cs[j]? = some c) :
    (checkboxId i j, { repo_id := repo.id, commit_sha := c.sha }) ∈ st.data ∧
      st.data.keys.Nodup ∧
      st.data.get inherited (checkboxId i j) =
        .entry { repo_id := repo.id, commit_sha := c.sha } := by
  rw [render_ok_eq h]
  have hlist : repo.commitList = cs := by simp [Repository.commitList, hcs]
  have hmem := @entriesFrom_mem r 0 i j repo c hi (by rw [hlist]; exact hj)
  simp only [Nat.zero_add] at hmem
  exact ⟨hmem, entriesFrom_nodup r 0,
    Index.get_of_mem inherited _ _ _ (entriesFrom_nodup r 0) hmem⟩

/-- C2: after the loops have finished, the index read at the identifier of the
checkbox of commit `j` of repository `i` gives that repository's id and that
commit's sha, whatever names arrays inherit, and the identifier is the key of
one entry only. -/
theorem index_lookup (inherited : String → Bool) (r : List Repository) (st : RenderState)
    (i j : Nat) (repo : Repository) (cs : List Commit) (c : Commit)
    (h : render r = .ok st) (hi : r[i]? = some repo) (hcs : repo.commits = some cs)
    (hj : cs[j]? = some c) :
    st.data.get inherited (checkboxId i j) =
        .entry { repo_id := repo.id, commit_sha := c.sha } ∧
      st.data.keys.count (checkboxId i j) = 1 := by
  obtain ⟨hmem, hnd, hget⟩ := get_rendered inherited h hi hcs hj
  exact ⟨hget, List.count_eq_one_of_mem hnd (List.mem_map_of_mem Prod.fst hmem)⟩

theorem render_counts_witness :
    (∀ repo ∈ sampleSnapshot, repo.commits.isSome = true) ∧
      ∃ st, render sampleSnapshot = .ok st ∧
        st.html = String.join ((rowsFrom sampleSnapshot 0).map Row.markup) ∧
        ((rowsFrom sampleSnapshot 0).filter Row.isSummary).length = sampleSnapshot.length ∧
        ((rowsFrom sampleSnapshot 0).filter Row.isDetail).length =
          (sampleSnapshot.map fun repo => repo.commitList.length).sum ∧
        st.data.length = (sampleSnapshot.map fun repo => repo.commitList.length).sum ∧
        st.data.keys.Nodup :=
  ⟨by decide, render_counts sampleSnapshot (by decide)⟩

theorem index_lookup_witness :
    render sampleSnapshot = .ok sampleState ∧ sampleSnapshot[0]? = some sampleRepo ∧
      sampleRepo.commits = some [⟨"abc", "first", "http://a/1", 3, 14, "today", true⟩,
        sampleCommit] ∧
      [⟨"abc", "first", "http://a/1", 3, 14, "today", true⟩, sampleCommit][1]? =
        some sampleCommit ∧
      sampleState.data.get sampleInherited (checkboxId 0 1) =
        .entry { repo_id := sampleRepo.id, commit_sha := sampleCommit.sha } ∧
      sampleState.data.keys.count (checkboxId 0 1) = 1 :=
  ⟨by rfl, by rfl, by rfl, by rfl,
    index_lookup sampleInherited sampleSnapshot sampleState 0 1 sampleRepo _ sampleCommit
      (by rfl) (by rfl) (by rfl) (by rfl)⟩

/-! ## The query string -/

theorem encodeURIComponent_safe (s : String) (h : urlSafe s = true) :
    encodeURIComponent s = s := by
  apply String.ext
  simp only [encodeURIComponent]
  have h2 : ∀ c ∈ s.data, isUnreserved c = true := by
    simpa [urlSafe, List.all_eq_true] using h
  generalize s.data = l at h2
  induction l with
  | nil => rfl
  | cons c rest ih =>
    have hc := h2 c (List.mem_cons_self _ _)
    have hr := ih (fun x hx => h2 x (List.mem_cons_of_mem _ hx))
    simp only [List.flatMap_cons, encodeChar, hc, if_true, hr, List.singleton_append]

theorem percent_not_mem_safe (s : String) (h : urlSafe s = true) : '%' ∉ s.data := by
  intro hm
  have h2 : ∀ c ∈ s.data, isUnreserved c = true := by
    simpa [urlSafe, List.all_eq_true] using h
  exact absurd (h2 _ hm) (by decide)

theorem replacePercent20_id (l : List Char) (h : '%' ∉ l) : replacePercent20 l = l := by
  induction l with
  | nil => rfl
  | cons c rest ih =>
    have hc : c ≠ '%' := fun e => h (by simp [e])
    have hr := ih (fun hm => h (List.mem_cons_of_mem _ hm))
    unfold replacePercent20
    split
    · rename_i heq
      exact absurd (List.cons.inj heq).1 hc
    · rename_i heq
      rw [(List.cons.inj heq).1, ← (List.cons.inj heq).2, hr]
    · rename_i heq
      exact absurd heq (by simp)

theorem paramEntry_safe (jq : JQuery) (e : BindingEntry) (h1 : urlSafe e.repo_id = true)
    (h2 : urlSafe e.commit_sha = true) :
    paramEntry jq e = "repo_id=" ++ e.repo_id ++ "&commit_sha=" ++ e.commit_sha := by
  have hs : "repo_id=" ++ e.repo_id ++ "&" ++ ("commit_sha=" ++ e.commit_sha) =
      "repo_id=" ++ e.repo_id ++ "&commit_sha=" ++ e.commit_sha := by
    apply String.ext; simp [String.data_append]
  simp only [paramEntry, encodeURIComponent_safe _ h1, encodeURIComponent_safe _ h2]
  cases jq.plusForSpace with
  | false => simpa using hs
  | true =>
    simp only [if_true]
    rw [replacePercent20_id, hs]
    simp only [String.data_append, List.mem_append, not_or]
    exact ⟨⟨⟨by decide, percent_not_mem_safe _ h1⟩, by decide⟩, by decide,
      percent_not_mem_safe _ h2⟩

theorem paramEntry_plain (jq : JQuery) (e : BindingEntry) (h : jq.plusForSpace = false) :
    paramEntry jq e = "repo_id=" ++ encodeURIComponent e.repo_id ++ "&commit_sha=" ++
      encodeURIComponent e.commit_sha := by
  simp only [paramEntry, h]
  apply String.ext; simp [String.data_append]

/-! ## The change handler on rendered and on unknown identifiers -/

/-- C3: a change event on the checkbox of commit `j` of repository `i` hands
`$.ajax` exactly one request, of type POST when the box is now checked and
DELETE when it is not, whose url is `/api/viewed?` followed by the serialised
pair of that repository's id and that commit's sha: `repo_id=` and
`&commit_sha=` with the URI-encoded values, which are the values themselves
when these are made of unreserved characters. -/
theorem change_request (jq : JQuery) (inherited : String → Bool) (r : List Repository)
    (st : RenderState) (i j : Nat) (repo : Repository) (cs : List Commit) (c : Commit)
    (checked : Bool)
    (h : render r = .ok st) (hi : r[i]? = some repo) (hcs : repo.commits = some cs)
    (hj : cs[j]? = some c) :
    change jq inherited st.data (checkboxId i j) checked = .ok
        [{ url := "/api/viewed?" ++ paramEntry jq { repo_id := repo.id, commit_sha := c.sha }
           type := if checked then "POST" else "DELETE" }] ∧
      (jq.plusForSpace = false →
        paramEntry jq { repo_id := repo.id, commit_sha := c.sha } =
          "repo_id=" ++ encodeURIComponent repo.id ++ "&commit_sha=" ++
            encodeURIComponent c.sha) ∧
      (urlSafe repo.id = true → urlSafe c.sha = true →
        "/api/viewed?" ++ paramEntry jq { repo_id := repo.id, commit_sha := c.sha } =
          "/api/viewed?repo_id=" ++ repo.id ++ "&commit_sha=" ++ c.sha) := by
  obtain ⟨_, _, hget⟩ := get_rendered inherited h hi hcs hj
  refine ⟨by simp [change, hget, param], paramEntry_plain jq _, fun h1 h2 => ?_⟩
  rw [paramEntry_safe jq _ h1 h2]
  apply String.ext; simp [String.data_append]

theorem change_request_witness :
    render sampleSnapshot = .ok sampleState ∧
      change sampleJQuery sampleInherited sampleState.data (checkboxId 0 1) false = .ok
        [{ url := "/api/viewed?repo_id=7&commit_sha=def", type := "DELETE" }] := by
  have hw := change_request sampleJQuery sampleInherited sampleSnapshot sampleState 0 1
    sampleRepo _ sampleCommit false (by rfl) (by rfl) (by rfl) (by rfl)
  refine ⟨by rfl, ?_⟩
  rw [hw.1, hw.2.2 (by decide) (by decide)]
  rfl

/-- C6, as the script has it: a change event whose identifier has no entry in
the index is not ignored. The handler serialises whatever `data[id]` gives. For
`length` and for a name arrays inherit, that is a built-in value: it is
serialised as the empty string and one request goes to `/api/viewed?`. For any
other identifier it is `undefined`: either `$.param(undefined)` throws and the
exception leaves the handler, or one request goes to `/api/viewed?` followed by
what it gave. The request is POST or DELETE by the state of the box. -/
theorem change_miss (jq : JQuery) (inherited : String → Bool) (r : List Repository)
    (st : RenderState) (id : String) (checked : Bool) (h : render r = .ok st)
    (hmiss : id ∉ st.data.keys) :
    change jq inherited st.data id checked =
        (if id = "length" ∨ inherited id = true then
          .ok [{ url := "/api/viewed?", type := if checked then "POST" else "DELETE" }]
        else
          match jq.paramUndefined with
          | .error e => .error e
          | .ok query =>
            .ok [{ url := "/api/viewed?" ++ query
                   type := if checked then "POST" else "DELETE" }]) ∧
      change jq inherited st.data id checked ≠ .ok [] := by
  have _ := h
  have hget := Index.get_of_not_mem inherited st.data id hmiss
  by_cases hb : id = "length" ∨ inherited id = true
  · rw [if_pos hb] at hget
    have hc : change jq inherited st.data id checked =
        .ok [{ url := "/api/viewed?", type := if checked then "POST" else "DELETE" }] := by
      simp only [change, hget, param]
      rfl
    rw [if_pos hb, hc]
    exact ⟨rfl, by simp⟩
  · rw [if_neg hb] at hget
    have hc : change jq inherited st.data id checked =
        (match jq.paramUndefined with
         | .error e => .error e
         | .ok query =>
           .ok [{ url := "/api/viewed?" ++ query
                  type := if checked then "POST" else "DELETE" }]) := by
      simp only [change, hget, param]
    rw [if_neg hb, hc]
    refine ⟨rfl, ?_⟩
    cases jq.paramUndefined <;> simp

theorem change_miss_witness :
    render sampleSnapshot = .ok sampleState ∧ "length" ∉ sampleState.data.keys ∧
      change sampleJQuery sampleInherited sampleState.data "length" true =
        .ok [{ url := "/api/viewed?", type := "POST" }] ∧
      change sampleJQuery sampleInherited sampleState.data "length" true ≠ .ok [] :=
  have hw := change_miss sampleJQuery sampleInherited sampleSnapshot sampleState "length" true
    (by rfl) (by decide)
  ⟨by rfl, by decide, hw.1, hw.2⟩

/-- C6 as claimed fails: on the index of `sampleSnapshot`, whose keys are
`r0-c0-chb` and `r0-c1-chb`, the identifier `r2-c0-chb` has no entry and the
handler either sends a request to `/api/viewed?` (a jQuery whose
`$.param(undefined)` is the empty string) or throws (a jQuery whose
`$.param(undefined)` throws); the identifiers `length` and `constructor` have
no entry either and the handler sends a request to `/api/viewed?`. -/
theorem change_miss_counterexample :
    render sampleSnapshot = .ok sampleState ∧
      sampleState.data.keys = ["r0-c0-chb", "r0-c1-chb"] ∧
      change { paramUndefined := .ok "", plusForSpace := false } sampleInherited
          sampleState.data "r2-c0-chb" true =
        .ok [{ url := "/api/viewed?", type := "POST" }] ∧
      change { paramUndefined := .error "TypeError", plusForSpace := true } sampleInherited
          sampleState.data "r2-c0-chb" true = .error "TypeError" ∧
      change { paramUndefined := .error "TypeError", plusForSpace := true } sampleInherited
          sampleState.data "length" true =
        .ok [{ url := "/api/viewed?", type := "POST" }] ∧
      change { paramUndefined := .error "TypeError", plusForSpace := true } sampleInherited
          sampleState.data "constructor" false =
        .ok [{ url := "/api/viewed?", type := "DELETE" }] :=
  ⟨by rfl, by rfl, by rfl, by rfl, by rfl, by rfl⟩

/-! ## A repository without a commits list -/

/-- C7, as the script has it: when some repository of the snapshot has no
commits list the loops throw a `TypeError` on reading its `length`; no state is
returned, so neither markup nor index is produced. -/
theorem render_missing_commits (r : List Repository)
    (h : ∃ repo ∈ r, repo.commits = none) :
    render r = .error "TypeError" ∧ ∀ st, render r ≠ .ok st := by
  have he : render r = .error "TypeError" := repoLoop_error r 0 _ h
  refine ⟨he, fun st hst => ?_⟩
  rw [he] at hst
  exact absurd hst (by simp)

theorem render_missing_commits_witness :
    (∃ repo ∈ [sampleRepo, ⟨"9", "beta", "http://b", none⟩], repo.commits = none) ∧
      render [sampleRepo, ⟨"9", "beta", "http://b", none⟩] = .error "TypeError" ∧
      ∀ st, render [sampleRepo, ⟨"9", "beta", "http://b", none⟩] ≠ .ok st :=
  ⟨⟨⟨"9", "beta", "http://b", none⟩, by simp, rfl⟩,
    render_missing_commits _ ⟨⟨"9", "beta", "http://b", none⟩, by simp, rfl⟩⟩

/-- C7 as claimed fails: a snapshot of one repository without a commits list is
not rendered as a repository with an empty commits list; the loops throw. -/
theorem render_missing_commits_counterexample :
    render [⟨"9", "beta", "http://b", none⟩] = .error "TypeError" ∧
      render [⟨"9", "beta", "http://b", some []⟩] = .ok
        { html := summaryRow 0 "http://b" "beta" 0, data := [] } :=
  ⟨by rfl, by rfl⟩

/-! ## Order of the rows -/

theorem detailRows_enumFrom (i : Nat) (cs : List Commit) (j : Nat) :
    (detailRows i cs j).map Row.markup = (cs.enumFrom j).map fun q => detailRow i q.1 q.2 := by
  induction cs generalizing j with
  | nil => rfl
  | cons c rest ih => simp [detailRows, List.enumFrom_cons, Row.markup, ih]

theorem rowsFrom_enumFrom (rs : List Repository) (i : Nat) :
    String.join ((rowsFrom rs i).map Row.markup) =
      String.join ((rs.enumFrom i).map fun p => repoBlock p.1 p.2) := by
  induction rs generalizing i with
  | nil => rfl
  | cons repo rest ih =>
    simp only [rowsFrom, List.map_cons, List.map_append, List.enumFrom_cons, join_cons,
      join_append, ih, repoBlock, Row.markup, detailRows_enumFrom, List.enum,
      String.append_assoc]

/-- C9: the markup is the concatenation, in snapshot order, of one block per
repository; the block of repository `i` is its summary row directly followed by
the detail rows of its commits in list order; and the detail row of the commit
at position `j` opens with group class `order{i}` and shows the number `j + 1`. -/
theorem render_order (r : List Repository) (st : RenderState) (h : render r = .ok st) :
    st.html = String.join (r.enum.map fun p => repoBlock p.1 p.2) ∧
      (∀ i repo, repoBlock i repo =
        summaryRow i repo.url repo.name repo.commitList.length ++
          String.join (repo.commitList.enum.map fun q => detailRow i q.1 q.2)) ∧
      ∀ i j c,
        ("\n                        <tr class=\"collapse order" ++ toString i ++
          "\">\n                            <td>" ++ toString (j + 1) ++ "</td>").data <+:
          (detailRow i j c).data := by
  rw [render_ok_eq h]
  refine ⟨rowsFrom_enumFrom r 0, fun _ _ => rfl, fun i j c => ?_⟩
  simp only [detailRow, detailHead, String.data_append, List.append_assoc]
  repeat apply (List.prefix_append_right_inj _).2
  exact ⟨_, rfl⟩

theorem render_order_witness :
    render sampleSnapshot = .ok sampleState ∧
      sampleState.html = String.join (sampleSnapshot.enum.map fun p => repoBlock p.1 p.2) :=
  ⟨by rfl, (render_order sampleSnapshot sampleState (by rfl)).1⟩

/-! ## Rows and entries of one repository -/

theorem isKeyOf_checkboxId (i i2 j : Nat) : isKeyOf i (checkboxId i2 j) = decide (i = i2) := by
  have hp : ("r" ++ toString i ++ "-c").data = 'r' :: (Nat.toDigits 10 i ++ '-' :: ['c']) := by
    simp [String.data_append, toString_data]
  by_cases h : i = i2
  · subst h
    simp only [isKeyOf, hp, checkboxId_data, decide_True]
    rw [List.isPrefixOf_iff_prefix]
    exact ⟨Nat.toDigits 10 j ++ '-' :: ['c', 'h', 'b'], by simp⟩
  · simp only [h, decide_False]
    cases hk : isKeyOf i (checkboxId i2 j) with
    | false => rfl
    | true =>
      exfalso
      simp only [isKeyOf, hp, checkboxId_data] at hk
      rw [List.isPrefixOf_iff_prefix] at hk
      obtain ⟨t, ht⟩ := hk
      simp only [List.cons_append, List.append_assoc, List.cons.injEq, true_and] at ht
      exact h (toDigits_injective
        (append_cons_cancel (dash_not_mem_toDigits i) (dash_not_mem_toDigits i2) ht).1)

theorem detailEntries_filter_same (i : Nat) (repoId : String) (cs : List Commit) (j : Nat) :
    (detailEntries i repoId cs j).filter (fun p => isKeyOf i p.1) =
      detailEntries i repoId cs j := by
  induction cs generalizing j with
  | nil => rfl
  | cons c rest ih => simp [detailEntries, isKeyOf_checkboxId, ih]

theorem detailEntries_filter_other (i i2 : Nat) (repoId : String) (cs : List Commit)
    (j : Nat) (h : i ≠ i2) :
    (detailEntries i2 repoId cs j).filter (fun p => isKeyOf i p.1) = [] := by
  induction cs generalizing j with
  | nil => rfl
  | cons c rest ih => simp [detailEntries, isKeyOf_checkboxId, ih, h]

theorem entriesFrom_filter_lt (rs : List Repository) (i b : Nat) (h : i < b) :
    (entriesFrom rs b).filter (fun p => isKeyOf i p.1) = [] := by
  induction rs generalizing b with
  | nil => rfl
  | cons repo rest ih =>
    simp only [entriesFrom, List.filter_append]
    rw [detailEntries_filter_other i b _ _ _ (by omega), ih (b + 1) (by omega)]
    rfl

theorem entriesFrom_filter {rs : List Repository} {b n : Nat} {repo : Repository}
    (h : rs[n]? = some repo) :
    ((entriesFrom rs b).filter (fun p => isKeyOf (b + n) p.1)).length =
      repo.commitList.length := by
  induction rs generalizing b n with
  | nil => simp at h
  | cons r0 rest ih =>
    simp only [entriesFrom, List.filter_append, List.length_append]
    cases n with
    | zero =>
      simp at h; subst h
      rw [Nat.add_zero, detailEntries_filter_same, entriesFrom_filter_lt _ _ _ (by omega),
        detailEntries_length]
      rfl
    | succ n =>
      simp at h
      rw [detailEntries_filter_other _ _ _ _ _ (by omega)]
      have := @ih (b + 1) n h
      rw [show b + 1 + n = b + (n + 1) by omega] at this
      simpa using this

theorem detailRows_filter_same (i : Nat) (cs : List Commit) (j : Nat) :
    ((detailRows i cs j).filter (Row.isDetailOf i)).length = cs.length := by
  induction cs generalizing j with
  | nil => rfl
  | cons c rest ih => simp [detailRows, Row.isDetailOf, ih]

theorem detailRows_filter_other (i i2 : Nat) (cs : List Commit) (j : Nat) (h : i2 ≠ i) :
    (detailRows i2 cs j).filter (Row.isDetailOf i) = [] := by
  induction cs generalizing j with
  | nil => rfl
  | cons c rest ih => simp [detailRows, Row.isDetailOf, ih, h]

theorem rowsFrom_filter_lt (rs : List Repository) (i b : Nat) (h : i < b) :
    (rowsFrom rs b).filter (Row.isDetailOf i) = [] := by
  induction rs generalizing b with
  | nil => rfl
  | cons repo rest ih =>
    simp only [rowsFrom, List.filter_cons, Row.isDetailOf, List.filter_append]
    rw [detailRows_filter_other i b _ _ (by omega), ih (b + 1) (by omega)]
    rfl

theorem rowsFrom_filter {rs : List Repository} {b n : Nat} {repo : Repository}
    (h : rs[n]? = some repo) :
    ((rowsFrom rs b).filter (Row.isDetailOf (b + n))).length = repo.commitList.length := by
  induction rs generalizing b n with
  | nil => simp at h
  | cons r0 rest ih =>
    simp only [rowsFrom, List.filter_cons, Row.isDetailOf, List.filter_append]
    cases n with
    | zero =>
      simp at h; subst h
      simp only [Nat.add_zero, Bool.false_eq_true, if_false, List.length_append]
      rw [detailRows_filter_same, rowsFrom_filter_lt _ _ _ (by omega)]
      rfl
    | succ n =>
      simp at h
      rw [detailRows_filter_other _ _ _ _ (by omega)]
      have := @ih (b + 1) n h
      rw [show b + 1 + n = b + (n + 1) by omega] at this
      simpa using this

/-- C8: when every repository has a commits list the loops finish, and for
repository `i` with commits list `cs` they emit a summary row that ends with the
count `cs.length` in brackets, exactly `cs.length` detail rows of group
`order{i}` and exactly `cs.length` entries under identifiers `r{i}-c...`; for an
empty list that is the count 0, no detail row and no entry. -/
theorem render_repo_counts (r : List Repository) (i : Nat) (repo : Repository)
    (cs : List Commit) (hc : ∀ x ∈ r, x.commits.isSome = true)
    (hi : r[i]? = some repo) (hcs : repo.commits = some cs) :
    ∃ st, render r = .ok st ∧
      st.html = String.join ((rowsFrom r 0).map Row.markup) ∧
      Row.summary i repo.url repo.name cs.length ∈ rowsFrom r 0 ∧
      (" (" ++ toString cs.length ++ ")</a></td>\n                    </tr>\n                ").data
        <:+ (Row.summary i repo.url repo.name cs.length).markup.data ∧
      ((rowsFrom r 0).filter (Row.isDetailOf i)).length = cs.length ∧
      (st.data.filter (fun p => isKeyOf i p.1)).length = cs.length ∧
      (cs = [] → toString cs.length = "0" ∧
        (rowsFrom r 0).filter (Row.isDetailOf i) = [] ∧
        st.data.filter (fun p => isKeyOf i p.1) = []) := by
  have hlist : repo.commitList = cs := by simp [Repository.commitList, hcs]
  have h1 := @rowsFrom_mem_summary r 0 i repo hi
  have h2 := @rowsFrom_filter r 0 i repo hi
  have h3 := @entriesFrom_filter r 0 i repo hi
  simp only [Nat.zero_add, hlist] at h1 h2 h3
  refine ⟨_, render_eq r hc, rfl, h1, ?_, h2, h3, fun he => ?_⟩
  · simp only [Row.markup, summaryRow, String.data_append, List.append_assoc]
    repeat (first | exact List.suffix_refl _ | apply suffix_append_left)
  · subst he
    exact ⟨rfl, List.eq_nil_of_length_eq_zero h2, List.eq_nil_of_length_eq_zero h3⟩

theorem render_repo_counts_witness :
    (∀ x ∈ sampleSnapshot, x.commits.isSome = true) ∧
      sampleSnapshot[1]? = some ⟨"9", "beta", "http://b", some []⟩ ∧
      ∃ st, render sampleSnapshot = .ok st ∧
        st.html = String.join ((rowsFrom sampleSnapshot 0).map Row.markup) ∧
        Row.summary 1 "http://b" "beta" 0 ∈ rowsFrom sampleSnapshot 0 ∧
        (" (" ++ toString 0 ++ ")</a></td>\n                    </tr>\n                ").data
          <:+ (Row.summary 1 "http://b" "beta" 0).markup.data ∧
        ((rowsFrom sampleSnapshot 0).filter (Row.isDetailOf 1)).length = 0 ∧
        (st.data.filter (fun p => isKeyOf 1 p.1)).length = 0 ∧
        (([] : List Commit) = [] → toString 0 = "0" ∧
          (rowsFrom sampleSnapshot 0).filter (Row.isDetailOf 1) = [] ∧
          st.data.filter (fun p => isKeyOf 1 p.1) = []) :=
  ⟨by decide, by rfl,
    render_repo_counts sampleSnapshot 1 ⟨"9", "beta", "http://b", some []⟩ []
      (by decide) (by rfl) (by rfl)⟩

/-! ## The checkbox element and the interpolated names -/

theorem infix_of_last_not_mem {α : Type} {p a rest : List α} {x : α} (hx : x ∉ rest)
    (h : p ++ [x] <:+: a ++ rest) : p ++ [x] <:+: a := by
  obtain ⟨s, t, ht⟩ := h
  rcases List.append_eq_append_iff.1 ht with ⟨u, hu, _⟩ | ⟨u, hu, hr⟩
  · exact ⟨s, u, hu.symm⟩
  · rcases List.eq_nil_or_concat u with hnil | ⟨u2, y, hy⟩
    · subst hnil
      exact ⟨s, [], by simpa using hu⟩
    · exfalso
      subst hy
      rw [List.concat_eq_append] at hu hr
      have hxy : x = y := by
        have h2 : (s ++ p) ++ [x] = (a ++ u2) ++ [y] := by simpa using hu
        exact List.singleton_inj.1 (List.append_inj_right' h2 rfl)
      apply hx
      rw [hr, hxy]
      simp

theorem isDigit_ne_d {c : Char} (h : c.isDigit = true) : c ≠ 'd' := by
  intro e; subst e; exact absurd h (by decide)

set_option maxRecDepth 20000 in
theorem checkbox_unchecked (i j : Nat) : ¬ ("checked".data <:+: (checkbox i j false).data) := by
  intro h
  have hd : ∀ n, 'd' ∉ Nat.toDigits 10 n :=
    fun n hm => isDigit_ne_d (toDigits_isDigit n _ hm) rfl
  simp only [checkbox, String.data_append, List.append_assoc, checkboxId_data] at h
  have h2 := @infix_of_last_not_mem Char "checke".data _ _ 'd' ?_ h
  · exact absurd h2 (by decide)
  · simp [hd]

theorem infix_join_of_mem {s : String} {l : List String} (h : s ∈ l) :
    s.data <:+: (String.join l).data := by
  induction l with
  | nil => simp at h
  | cons a rest ih =>
    rw [join_cons, String.data_append]
    rcases List.mem_cons.1 h with e | hm
    · subst e
      exact (List.prefix_append _ _).isInfix
    · exact infix_append_left _ (ih hm)

/-- C4: the detail row of commit `j` of repository `i` is one of the rows of the
markup and holds the checkbox element of that commit, and the text `checked`
occurs in that element exactly when the commit's `viewed` is true. -/
theorem checkbox_checked_iff (r : List Repository) (st : RenderState) (i j : Nat)
    (repo : Repository) (cs : List Commit) (c : Commit)
    (h : render r = .ok st) (hi : r[i]? = some repo) (hcs : repo.commits = some cs)
    (hj : cs[j]? = some c) :
    st.html = String.join ((rowsFrom r 0).map Row.markup) ∧
      Row.detail i j c ∈ rowsFrom r 0 ∧
      (checkbox i j c.viewed).data <:+: (Row.detail i j c).markup.data ∧
      ("checked".data <:+: (checkbox i j c.viewed).data ↔ c.viewed = true) := by
  have hlist : repo.commitList = cs := by simp [Repository.commitList, hcs]
  have hmem := @rowsFrom_mem_detail r 0 i j repo c hi (by rw [hlist]; exact hj)
  simp only [Nat.zero_add] at hmem
  refine ⟨by rw [render_ok_eq h], hmem, ?_, ?_⟩
  · simp only [Row.markup, detailRow, String.data_append]
    exact List.infix_append _ _ _
  · cases hv : c.viewed with
    | false => simpa using checkbox_unchecked i j
    | true =>
      simp only [checkbox, String.data_append, if_true, iff_true]
      exact infix_append_right _ (infix_append_left _ (List.infix_refl _))

theorem checkbox_checked_iff_witness :
    render sampleSnapshot = .ok sampleState ∧
      Row.detail 0 1 sampleCommit ∈ rowsFrom sampleSnapshot 0 ∧
      ("checked".data <:+: (checkbox 0 1 sampleCommit.viewed).data ↔
        sampleCommit.viewed = true) :=
  have hw := checkbox_checked_iff sampleSnapshot sampleState 0 1 sampleRepo _ sampleCommit
    (by rfl) (by rfl) (by rfl) (by rfl)
  ⟨by rfl, hw.2.1, hw.2.2.2⟩

theorem summaryRow_contains_name (i : Nat) (url name : String) (count : Nat) :
    name.data <:+: (summaryRow i url name count).data := by
  simp only [summaryRow, String.data_append, List.append_assoc]
  repeat (first | exact (List.prefix_append _ _).isInfix | apply infix_append_left)

theorem detailRow_contains_name (i j : Nat) (c : Commit) :
    c.name.data <:+: (detailRow i j c).data := by
  simp only [detailRow, detailHead, String.data_append, List.append_assoc]
  repeat (first | exact (List.prefix_append _ _).isInfix | apply infix_append_left)

set_option maxRecDepth 20000 in
/-- C10: the names are interpolated as they are. In the markup of every snapshot
the name of every repository and the name of every commit occur character for
character; and for `injectedSnapshot`, one repository with one commit whose name
is the text of an input element, the markup has two occurrences of `<input`
while the index has one entry. -/
theorem render_no_escaping :
    (∀ (r : List Repository) (st : RenderState) (i : Nat) (repo : Repository),
        render r = .ok st → r[i]? = some repo → repo.name.data <:+: st.html.data) ∧
      (∀ (r : List Repository) (st : RenderState) (i j : Nat) (repo : Repository)
          (cs : List Commit) (c : Commit),
        render r = .ok st → r[i]? = some repo → repo.commits = some cs → cs[j]? = some c →
          c.name.data <:+: st.html.data) ∧
      injectedSnapshot.length = 1 ∧
      (injectedSnapshot.map fun repo => repo.commitList.length) = [1] ∧
      render injectedSnapshot = .ok injectedState ∧
      countOccurrences "<input".data injectedState.html.data = 2 ∧
      injectedState.data.length = 1 := by
  refine ⟨?_, ?_, by rfl, by rfl, by rfl, by decide, by rfl⟩
  · intro r st i repo h hi
    rw [render_ok_eq h]
    have hmem := @rowsFrom_mem_summary r 0 i repo hi
    exact (summaryRow_contains_name _ _ _ _).trans
      (infix_join_of_mem (List.mem_map_of_mem Row.markup hmem))
  · intro r st i j repo cs c h hi hcs hj
    rw [render_ok_eq h]
    have hlist : repo.commitList = cs := by simp [Repository.commitList, hcs]
    have hmem := @rowsFrom_mem_detail r 0 i j repo c hi (by rw [hlist]; exact hj)
    exact (detailRow_contains_name _ _ _).trans
      (infix_join_of_mem (List.mem_map_of_mem Row.markup hmem))

theorem render_no_escaping_witness :
    render sampleSnapshot = .ok sampleState ∧ sampleSnapshot[0]? = some sampleRepo ∧
      sampleRepo.name.data <:+: sampleState.html.data :=
  ⟨by rfl, by rfl, render_no_escaping.1 sampleSnapshot sampleState 0 sampleRepo (by rfl) (by rfl)⟩

/-! ## The query string determines the entry -/

theorem hexDigit_injective {a b : Nat} (ha : a < 16) (hb : b < 16)
    (h : hexDigit a = hexDigit b) : a = b := by
  interval_cases a <;> interval_cases b <;> first | rfl | exact absurd h (by decide)

theorem utf8Octets_lt {n : Nat} (hn : n < 0x110000) : ∀ b ∈ utf8Octets n, b < 256 := by
  intro b hb
  unfold utf8Octets at hb
  split_ifs at hb <;> simp at hb <;> omega

theorem utf8Octets_prefix_free {m n : Nat} {t u : List Nat} (hm : m < 0x110000)
    (hn : n < 0x110000) (h : utf8Octets m ++ t = utf8Octets n ++ u) : m = n ∧ t = u := by
  unfold utf8Octets at h
  split_ifs at h <;> simp at h <;>
    first
    | exact h
    | (exfalso; omega)
    | exact ⟨by omega, by simp_all⟩

theorem hexDigit_ne_percent {a : Nat} (ha : a < 16) : hexDigit a ≠ '%' := by
  interval_cases a <;> decide

theorem replacePercent20_cons_ne {c : Char} (rest : List Char) (h : c ≠ '%') :
    replacePercent20 (c :: rest) = c :: replacePercent20 rest := by
  rw [replacePercent20.eq_def]
  split
  · rename_i heq
    exact absurd (List.cons.inj heq).1 h
  · rename_i heq
    rw [(List.cons.inj heq).1, (List.cons.inj heq).2]
  · rename_i heq
    exact absurd heq (by simp)

theorem replacePercent20_append {l : List Char} (rest : List Char) (h : '%' ∉ l) :
    replacePercent20 (l ++ rest) = l ++ replacePercent20 rest := by
  induction l with
  | nil => rfl
  | cons c l ih =>
    rw [List.cons_append, replacePercent20_cons_ne _ (fun e => h (by simp [e])),
      ih (fun hm => h (List.mem_cons_of_mem _ hm))]
    rfl

theorem replacePercent20_octet {b : Nat} (rest : List Char) (hb : b < 256) :
    replacePercent20 (percentOctet b ++ rest) =
      (if b = 32 then ['+'] else percentOctet b) ++ replacePercent20 rest := by
  by_cases h : b = 32
  · subst h; rfl
  · simp only [if_neg h, percentOctet, List.cons_append, List.nil_append]
    rw [replacePercent20.eq_def]
    split
    · rename_i heq
      simp only [List.cons.injEq, true_and] at heq
      have e1 := @hexDigit_injective (b / 16) 2 (by omega) (by omega) heq.1
      have e2 := @hexDigit_injective (b % 16) 0 (by omega) (by omega) heq.2.1
      omega
    · rename_i heq
      rw [← (List.cons.inj heq).1, ← (List.cons.inj heq).2,
        replacePercent20_cons_ne _ (hexDigit_ne_percent (by omega)),
        replacePercent20_cons_ne _ (hexDigit_ne_percent (Nat.mod_lt _ (by decide)))]
    · rename_i heq
      exact absurd heq (by simp)


theorem char_toNat_lt (c : Char) : c.toNat < 0x110000 := by
  have h := c.valid
  simp only [UInt32.isValidChar, Nat.isValidChar] at h
  simp only [Char.toNat]
  omega

theorem char_toNat_injective {c d : Char} (h : c.toNat = d.toNat) : c = d := by
  rw [← Char.ofNat_toNat c, ← Char.ofNat_toNat d, h]

theorem percent_split : ∀ (l l2 : List Nat) (t t2 : List Char),
    (∀ b ∈ l, b < 256) → (∀ b ∈ l2, b < 256) →
    l.flatMap percentOctet ++ t = l2.flatMap percentOctet ++ t2 →
    ∃ m, (l2 = l ++ m ∧ t = m.flatMap percentOctet ++ t2) ∨
      (l = l2 ++ m ∧ t2 = m.flatMap percentOctet ++ t)
  | [], l2, t, t2, _, _, h => ⟨l2, Or.inl ⟨rfl, by simpa using h⟩⟩
  | a :: l, [], t, t2, _, _, h => ⟨a :: l, Or.inr ⟨rfl, by simpa using h.symm⟩⟩
  | a :: l, b :: l2, t, t2, h1, h2, h => by
    have ha := h1 a (List.mem_cons_self _ _)
    have hb := h2 b (List.mem_cons_self _ _)
    simp only [List.flatMap_cons, percentOctet, List.cons_append, List.nil_append,
      List.cons.injEq, true_and] at h
    have e1 := hexDigit_injective (by omega) (by omega) h.1
    have e2 := hexDigit_injective (Nat.mod_lt _ (by decide)) (Nat.mod_lt _ (by decide)) h.2.1
    have hab : a = b := by omega
    obtain ⟨m, hm⟩ := percent_split l l2 t t2 (fun x hx => h1 x (List.mem_cons_of_mem _ hx))
      (fun x hx => h2 x (List.mem_cons_of_mem _ hx)) h.2.2
    refine ⟨m, ?_⟩
    rcases hm with ⟨h3, h4⟩ | ⟨h3, h4⟩
    · exact Or.inl ⟨by rw [hab, h3]; rfl, h4⟩
    · exact Or.inr ⟨by rw [hab, h3]; rfl, h4⟩

theorem octets_prefix_free {m n : Nat} {t u : List Char} (hm : m < 0x110000)
    (hn : n < 0x110000)
    (h : (utf8Octets m).flatMap percentOctet ++ t = (utf8Octets n).flatMap percentOctet ++ u) :
    m = n ∧ t = u := by
  obtain ⟨x, hx⟩ := percent_split _ _ _ _ (utf8Octets_lt hm) (utf8Octets_lt hn) h
  rcases hx with ⟨h1, h2⟩ | ⟨h1, h2⟩
  · have := @utf8Octets_prefix_free m n x [] hm hn (by simpa using h1.symm)
    refine ⟨this.1, ?_⟩
    rw [h2, this.2]; rfl
  · have := @utf8Octets_prefix_free n m x [] hn hm (by simpa using h1.symm)
    refine ⟨this.1.symm, ?_⟩
    rw [h2, this.2]; rfl


theorem utf8Octets_ne_space {n : Nat} (hn : n ≠ 32) : ∀ b ∈ utf8Octets n, b ≠ 32 := by
  intro b hb
  unfold utf8Octets at hb
  split_ifs at hb <;> simp at hb <;> omega

theorem replacePercent20_octets (l : List Nat) (rest : List Char)
    (h1 : ∀ b ∈ l, b < 256) (h2 : ∀ b ∈ l, b ≠ 32) :
    replacePercent20 (l.flatMap percentOctet ++ rest) =
      l.flatMap percentOctet ++ replacePercent20 rest := by
  induction l with
  | nil => rfl
  | cons b l ih =>
    rw [List.flatMap_cons, List.append_assoc,
      replacePercent20_octet _ (h1 b (List.mem_cons_self _ _)),
      if_neg (h2 b (List.mem_cons_self _ _)),
      ih (fun x hx => h1 x (List.mem_cons_of_mem _ hx))
        (fun x hx => h2 x (List.mem_cons_of_mem _ hx)), List.append_assoc]

theorem replacePercent20_encodeChar (c : Char) (rest : List Char) :
    replacePercent20 (encodeChar c ++ rest) = paramChar true c ++ replacePercent20 rest := by
  by_cases hs : c = ' '
  · subst hs; rfl
  · simp only [paramChar, hs, and_false, if_false]
    by_cases hu : isUnreserved c = true
    · simp only [encodeChar, hu, if_true, List.singleton_append]
      exact replacePercent20_cons_ne _ (fun e => by subst e; exact absurd hu (by decide))
    · simp only [encodeChar, hu]
      exact replacePercent20_octets _ _ (utf8Octets_lt (char_toNat_lt c))
        (utf8Octets_ne_space (fun e => hs (char_toNat_injective e)))

theorem replacePercent20_encode (s : List Char) (rest : List Char) :
    replacePercent20 (s.flatMap encodeChar ++ rest) =
      s.flatMap (paramChar true) ++ replacePercent20 rest := by
  induction s with
  | nil => rfl
  | cons c s ih =>
    rw [List.flatMap_cons, List.append_assoc, replacePercent20_encodeChar, ih,
      List.flatMap_cons, List.append_assoc]

theorem paramChar_false : paramChar false = encodeChar := by
  funext c; simp [paramChar]

theorem paramEntry_data (jq : JQuery) (e : BindingEntry) :
    (paramEntry jq e).data =
      "repo_id=".data ++ (e.repo_id.data.flatMap (paramChar jq.plusForSpace) ++
        '&' :: ("commit_sha=".data ++ e.commit_sha.data.flatMap (paramChar jq.plusForSpace))) := by
  cases hp : jq.plusForSpace with
  | false =>
    simp [paramEntry, hp, paramChar_false, encodeURIComponent, String.data_append]
  | true =>
    simp only [paramEntry, hp, if_true, encodeURIComponent, String.data_append,
      List.append_assoc]
    rw [replacePercent20_append _ (by decide), replacePercent20_encode,
      replacePercent20_append _ (by decide), replacePercent20_append _ (by decide)]
    have := replacePercent20_encode e.commit_sha.data []
    simp only [List.append_nil] at this
    rw [this]
    simp [replacePercent20]


theorem octets_head (n : Nat) : ∃ r, (utf8Octets n).flatMap percentOctet = '%' :: r := by
  unfold utf8Octets
  split_ifs <;> simp [percentOctet]

theorem paramChar_cases (p : Bool) (c : Char) :
    (isUnreserved c = true ∧ paramChar p c = [c]) ∨
      (isUnreserved c = false ∧ c = ' ' ∧ paramChar p c = ['+']) ∨
      (isUnreserved c = false ∧
        paramChar p c = (utf8Octets c.toNat).flatMap percentOctet) := by
  by_cases hs : p = true ∧ c = ' '
  · right; left
    obtain ⟨hp, hc⟩ := hs
    subst hc
    exact ⟨by decide, rfl, by simp [paramChar, hp]⟩
  · by_cases hu : isUnreserved c = true
    · left
      refine ⟨hu, ?_⟩
      simp only [paramChar, if_neg hs, encodeChar, hu, if_true]
    · right; right
      refine ⟨by simpa using hu, ?_⟩
      simp only [paramChar, if_neg hs, encodeChar, hu]
      rfl

theorem paramChar_prefix_free {p : Bool} {c d : Char} {t u : List Char}
    (h : paramChar p c ++ t = paramChar p d ++ u) : c = d ∧ t = u := by
  have hplus : isUnreserved '+' = false := by decide
  have hpct : isUnreserved '%' = false := by decide
  obtain ⟨rc, hrc⟩ := octets_head c.toNat
  obtain ⟨rd, hrd⟩ := octets_head d.toNat
  rcases paramChar_cases p c with ⟨hc, ec⟩ | ⟨hc, sc, ec⟩ | ⟨hc, ec⟩ <;>
    rcases paramChar_cases p d with ⟨hd, ed⟩ | ⟨hd, sd, ed⟩ | ⟨hd, ed⟩
  · rw [ec, ed] at h
    simpa using h
  · rw [ec, ed] at h
    simp only [List.singleton_append, List.cons.injEq] at h
    rw [h.1, hplus] at hc
    exact absurd hc (by simp)
  · rw [ec, ed, hrd] at h
    simp only [List.singleton_append, List.cons_append, List.cons.injEq] at h
    rw [h.1, hpct] at hc
    exact absurd hc (by simp)
  · rw [ec, ed] at h
    simp only [List.singleton_append, List.cons.injEq] at h
    rw [← h.1, hplus] at hd
    exact absurd hd (by simp)
  · rw [ec, ed] at h
    simp only [List.singleton_append, List.cons.injEq] at h
    exact ⟨by rw [sc, sd], h.2⟩
  · rw [ec, ed, hrd] at h
    simp only [List.singleton_append, List.cons_append, List.cons.injEq] at h
    exact absurd h.1 (by decide)
  · rw [ec, ed, hrc] at h
    simp only [List.singleton_append, List.cons_append, List.cons.injEq] at h
    rw [← h.1, hpct] at hd
    exact absurd hd (by simp)
  · rw [ec, ed, hrc] at h
    simp only [List.singleton_append, List.cons_append, List.cons.injEq] at h
    exact absurd h.1 (by decide)
  · rw [ec, ed] at h
    have := octets_prefix_free (char_toNat_lt c) (char_toNat_lt d) h
    exact ⟨char_toNat_injective this.1, this.2⟩

theorem paramChar_not_stop (p : Bool) (c : Char) (r : List Char) :
    paramChar p c ++ r ≠ [] ∧ ∀ u, paramChar p c ++ r ≠ '&' :: u := by
  obtain ⟨rc, hrc⟩ := octets_head c.toNat
  rcases paramChar_cases p c with ⟨hc, ec⟩ | ⟨hc, sc, ec⟩ | ⟨hc, ec⟩
  · rw [ec]
    refine ⟨by simp, fun u h => ?_⟩
    simp only [List.singleton_append, List.cons.injEq] at h
    rw [h.1] at hc
    exact absurd hc (by decide)
  · rw [ec]
    refine ⟨by simp, fun u h => ?_⟩
    simp only [List.singleton_append, List.cons.injEq] at h
    exact absurd h.1 (by decide)
  · rw [ec, hrc]
    refine ⟨by simp, fun u h => ?_⟩
    simp only [List.cons_append, List.cons.injEq] at h
    exact absurd h.1 (by decide)

theorem flatMap_paramChar_injective {p : Bool} :
    ∀ {s s2 t u : List Char}, (∀ c r, t ≠ paramChar p c ++ r) →
      (∀ c r, u ≠ paramChar p c ++ r) →
      s.flatMap (paramChar p) ++ t = s2.flatMap (paramChar p) ++ u → s = s2 ∧ t = u
  | [], [], _, _, _, _, h => ⟨rfl, by simpa using h⟩
  | [], d :: s2, _, _, ht, _, h => by
    simp only [List.flatMap_nil, List.nil_append, List.flatMap_cons, List.append_assoc] at h
    exact absurd h (ht _ _)
  | c :: s, [], _, _, _, hu, h => by
    simp only [List.flatMap_nil, List.nil_append, List.flatMap_cons, List.append_assoc] at h
    exact absurd h.symm (hu _ _)
  | c :: s, d :: s2, t, u, ht, hu, h => by
    simp only [List.flatMap_cons, List.append_assoc] at h
    have h1 := paramChar_prefix_free h
    have h2 := @flatMap_paramChar_injective p s s2 t u ht hu h1.2
    exact ⟨by rw [h1.1, h2.1], h2.2⟩

theorem paramEntry_injective (jq : JQuery) {e e2 : BindingEntry}
    (h : paramEntry jq e = paramEntry jq e2) : e = e2 := by
  have hd := congrArg String.data h
  rw [paramEntry_data, paramEntry_data] at hd
  have h1 := List.append_cancel_left hd
  have h2 := flatMap_paramChar_injective
    (fun c r e => (paramChar_not_stop _ c r).2 _ e.symm)
    (fun c r e => (paramChar_not_stop _ c r).2 _ e.symm) h1
  have h3 := List.append_cancel_left (List.cons.inj h2.2).2
  have h4 := @flatMap_paramChar_injective jq.plusForSpace e.commit_sha.data
    e2.commit_sha.data [] []
    (fun c r e => (paramChar_not_stop _ c r).1 e.symm)
    (fun c r e => (paramChar_not_stop _ c r).1 e.symm) (by simpa using h3)
  cases e; cases e2
  simp only [BindingEntry.mk.injEq]
  exact ⟨String.ext h2.1, String.ext h4.1⟩

/-- C5: identifiers of different positions are different strings; and when two
commits of two different repositories have the same sha, their checkboxes have
different identifiers, the index holds one entry for each with the id of its
own repository, the request of a change on the first carries the serialised
pair of the first, and when the two repository ids differ its url is not the
url of a request for the second. -/
theorem distinct_bindings :
    (∀ i j i2 j2 : Nat, (i, j) ≠ (i2, j2) → checkboxId i j ≠ checkboxId i2 j2) ∧
      ∀ (jq : JQuery) (inherited : String → Bool) (r : List Repository) (st : RenderState)
        (i j i2 j2 : Nat) (repo repo2 : Repository) (cs cs2 : List Commit) (c c2 : Commit)
        (checked : Bool),
        render r = .ok st → r[i]? = some repo → r[i2]? = some repo2 →
        repo.commits = some cs → repo2.commits = some cs2 →
        cs[j]? = some c → cs2[j2]? = some c2 → i ≠ i2 → c.sha = c2.sha →
          checkboxId i j ≠ checkboxId i2 j2 ∧
          (checkboxId i j, { repo_id := repo.id, commit_sha := c.sha }) ∈ st.data ∧
          (checkboxId i2 j2, { repo_id := repo2.id, commit_sha := c2.sha }) ∈ st.data ∧
          st.data.get inherited (checkboxId i j) =
            .entry { repo_id := repo.id, commit_sha := c.sha } ∧
          st.data.get inherited (checkboxId i2 j2) =
            .entry { repo_id := repo2.id, commit_sha := c2.sha } ∧
          change jq inherited st.data (checkboxId i j) checked = .ok
            [{ url := "/api/viewed?" ++
                 paramEntry jq { repo_id := repo.id, commit_sha := c.sha }
               type := if checked then "POST" else "DELETE" }] ∧
          (repo.id ≠ repo2.id →
            "/api/viewed?" ++ paramEntry jq { repo_id := repo.id, commit_sha := c.sha } ≠
              "/api/viewed?" ++
                paramEntry jq { repo_id := repo2.id, commit_sha := c2.sha }) := by
  refine ⟨fun i j i2 j2 hne h => ?_, ?_⟩
  · have := checkboxId_injective h
    exact hne (by rw [this.1, this.2])
  · intro jq inherited r st i j i2 j2 repo repo2 cs cs2 c c2 checked h hi hi2 hcs hcs2 hj hj2
      hne _
    obtain ⟨hm1, _, hg1⟩ := get_rendered inherited h hi hcs hj
    obtain ⟨hm2, _, hg2⟩ := get_rendered inherited h hi2 hcs2 hj2
    refine ⟨fun e => hne (checkboxId_injective e).1, hm1, hm2, hg1, hg2,
      by simp [change, hg1, param], fun hid e => ?_⟩
    have e2 := congrArg String.data e
    simp only [String.data_append] at e2
    have e3 := paramEntry_injective jq (String.ext (List.append_cancel_left e2))
    exact hid (congrArg BindingEntry.repo_id e3)

theorem distinct_bindings_witness :
    render sharedShaSnapshot = .ok sharedShaState ∧
      checkboxId 0 0 ≠ checkboxId 1 0 ∧
      sharedShaState.data.get sampleInherited (checkboxId 0 0) =
        .entry { repo_id := "7", commit_sha := "abc" } ∧
      sharedShaState.data.get sampleInherited (checkboxId 1 0) =
        .entry { repo_id := "9", commit_sha := "abc" } ∧
      change sampleJQuery sampleInherited sharedShaState.data (checkboxId 0 0) true = .ok
        [{ url := "/api/viewed?repo_id=7&commit_sha=abc", type := "POST" }] ∧
      change sampleJQuery sampleInherited sharedShaState.data (checkboxId 1 0) true = .ok
        [{ url := "/api/viewed?repo_id=9&commit_sha=abc", type := "POST" }] :=
  have hw := distinct_bindings.2 sampleJQuery sampleInherited sharedShaSnapshot sharedShaState
    0 0 1 0
    ⟨"7", "alpha", "http://a", some [⟨"abc", "first", "http://a/1", 3, 14, "today", true⟩]⟩
    ⟨"9", "beta", "http://b", some [⟨"abc", "other", "http://b/1", 1, 0, "now", false⟩]⟩
    _ _ ⟨"abc", "first", "http://a/1", 3, 14, "today", true⟩
    ⟨"abc", "other", "http://b/1", 1, 0, "now", false⟩ true
    (by rfl) (by rfl) (by rfl) (by rfl) (by rfl) (by rfl) (by rfl) (by decide) (by rfl)
  ⟨by rfl, hw.1, hw.2.2.2.1, hw.2.2.2.2.1, by rfl, by rfl⟩

end GithubNews
